import Mathlib

/-!
Verification of the number-theoretic core of the Diophantine equation
visualizer (`main.py`).  The Python functions are embedded shallowly:

* Python `%` on integers is floor-modulus, embedded as `Int.fmod`;
  Python `//` is floor-division, embedded as `Int.fdiv`.
* `math.gcd` is embedded as `Int.gcd` (non-negative gcd of absolute values).
* A Python function that may raise is embedded with `Except PyErr`;
  `ValueError` (raised by `find_particular_solution` on infeasibility and
  caught by `generate_solutions`) and `ZeroDivisionError` (raised by `%`,
  `//` with zero divisor and never caught inside the core) are separate
  error values.
* The float sort key `sqrt(x*x + y*y)` is embedded by the exact integer
  `x*x + y*y`: real square root is strictly monotone on non-negative
  arguments, so comparisons of `sqrt(x²+y²)` and of `x²+y²` agree
  (within native integer width, where the float square root is faithful).
-/

namespace Dio

/-- Python exception kinds that can escape the core functions. -/
inductive PyErr where
  | valueError : PyErr
  | zeroDivision : PyErr
deriving DecidableEq, Repr

/-- Negating both operands leaves Python floor division unchanged
(needed to reason about `Int.fmod` with a negative divisor). -/
theorem fdiv_neg_neg : ∀ (a b : Int), (-a).fdiv (-b) = a.fdiv b
  | Int.ofNat 0, Int.ofNat _ => by simp [Int.neg_zero]
  | Int.ofNat 0, Int.negSucc _ => rfl
  | Int.ofNat (_+1), Int.ofNat 0 => by simp [Int.neg_zero]
  | Int.ofNat (_+1), Int.ofNat (_+1) => rfl
  | Int.ofNat (_+1), Int.negSucc _ => rfl
  | Int.negSucc _, Int.ofNat 0 => by simp [Int.neg_zero]
  | Int.negSucc _, Int.ofNat (_+1) => rfl
  | Int.negSucc _, Int.negSucc _ => rfl

/-- Negating both operands negates Python floor modulus. -/
theorem fmod_neg_neg (a b : Int) : (-a).fmod (-b) = -(a.fmod b) := by
  rw [Int.fmod_def, Int.fmod_def, fdiv_neg_neg]
  ring

/-- The absolute value of a Python remainder is smaller than that of a
nonzero divisor; this is what makes the Euclidean recursion terminate. -/
theorem natAbs_fmod_lt (a : Int) {b : Int} (hb : b ≠ 0) :
    (a.fmod b).natAbs < b.natAbs := by
  rcases lt_or_gt_of_ne hb with hneg | hpos
  · have h1 : 0 ≤ (-a).fmod (-b) := Int.fmod_nonneg' (-a) (by omega)
    have h2 : (-a).fmod (-b) < -b := Int.fmod_lt_of_pos (-a) (by omega)
    have h3 : (-a).fmod (-b) = -(a.fmod b) := fmod_neg_neg a b
    omega
  · have h1 : 0 ≤ a.fmod b := Int.fmod_nonneg' a hpos
    have h2 : a.fmod b < b := Int.fmod_lt_of_pos a hpos
    omega

/-- Embedding of `extended_gcd` from `main.py`:
base case `b == 0` returns `(a, 1, 0)`; otherwise recurse on
`(b, a % b)` and back-substitute with `a // b`
(Python `%` / `//` are `Int.fmod` / `Int.fdiv`). -/
def extended_gcd (a b : Int) : Int × Int × Int :=
  if h : b = 0 then (a, 1, 0)
  else
    let r := extended_gcd b (a.fmod b)
    (r.1, r.2.2, r.2.1 - (a.fdiv b) * r.2.2)
termination_by b.natAbs
decreasing_by exact natAbs_fmod_lt a h

/-- Embedding of `find_particular_solution` from `main.py`:
run `extended_gcd` on `abs(a), abs(b)`, check `c % d` (Python raises
`ZeroDivisionError` when `d == 0`, `ValueError` when `d` does not divide
`c`), scale by `c // d`, then negate `x0` when `a < 0` and `y0` when
`b < 0`. -/
def find_particular_solution (a b c : Int) : Except PyErr (Int × Int) :=
  let r := extended_gcd ↑a.natAbs ↑b.natAbs
  let d := r.1
  if d = 0 then .error .zeroDivision
  else if c.fmod d ≠ 0 then .error .valueError
  else
    let x0 := r.2.1 * c.fdiv d
    let y0 := r.2.2 * c.fdiv d
    .ok (if a < 0 then -x0 else x0, if b < 0 then -y0 else y0)

/-- Embedding of `find_min_t_range` from `main.py`.  Mirrors Python's
evaluation order: first `find_particular_solution` (its exceptions
propagate), then `d = gcd(a, b)`; with a target, `t = (target_x - x0)
// (b // d)`; without, `max(abs(x0 // (b // d)), abs(y0 // (a // d))) + 5`.
Each Python `//` whose divisor is zero raises `ZeroDivisionError`,
embedded as an explicit check in evaluation order. -/
def find_min_t_range (a b c : Int) (target_x target_y : Option Int) :
    Except PyErr Int :=
  match find_particular_solution a b c with
  | .error e => .error e
  | .ok (x0, y0) =>
    let d : Int := Int.gcd a b
    match target_x, target_y with
    | some tx, some _ty =>
        if d = 0 then .error .zeroDivision
        else if b.fdiv d = 0 then .error .zeroDivision
        else .ok (max (|(tx - x0).fdiv (b.fdiv d)| + 5) 50)
    | _, _ =>
        if d = 0 then .error .zeroDivision
        else if b.fdiv d = 0 then .error .zeroDivision
        else if a.fdiv d = 0 then .error .zeroDivision
        else .ok (max (max |x0.fdiv (b.fdiv d)| |y0.fdiv (a.fdiv d)| + 5) 50)

/-- One candidate of the enumeration loop in `generate_solutions`:
`x, y, t` as appended by the Python loop, and `dist2 = x² + y²`, the
exact square of the float sort key `sqrt(x*x + y*y)` (the square root is
strictly monotone, so comparisons agree). -/
structure Cand where
  x : Int
  y : Int
  t : Int
  dist2 : Int
deriving DecidableEq, Repr

/-- The loop body of `generate_solutions`:
`x = x0 + (b//d)*t`, `y = y0 - (a//d)*t`, `dist` from the actual
coordinates; `bd` and `ad` stand for the precomputed `b//d`, `a//d`. -/
def mkCand (x0 y0 bd ad t : Int) : Cand :=
  { x := x0 + bd * t, y := y0 - ad * t, t := t,
    dist2 := (x0 + bd * t) * (x0 + bd * t) + (y0 - ad * t) * (y0 - ad * t) }

/-- Python's `range(-t_range, t_range + 1)` as a list of integers. -/
def tList (t_range : Nat) : List Int :=
  (List.range (2 * t_range + 1)).map (fun i : Nat => (i : Int) - (t_range : Int))

/-- The full candidate list appended by the loop `for t in
range(-t_range, t_range+1)`. -/
def candList (x0 y0 bd ad : Int) (t_range : Nat) : List Cand :=
  (tList t_range).map (mkCand x0 y0 bd ad)

/-- The sort comparison `key=lambda x: x[3]` (by distance from origin),
on the exact squared distances. -/
def candLe (p q : Cand) : Bool := p.dist2 ≤ q.dist2

/-- Embedding of `generate_solutions` from `main.py`:
`try: find_particular_solution ... except ValueError: return []`
(a `ZeroDivisionError` is not caught and propagates), then enumerate
`t ∈ range(-t_range, t_range+1)`, stably sort by distance from the
origin, truncate to `max_solutions`, and drop the distance column. -/
def generate_solutions (a b c : Int) (t_range max_solutions : Nat) :
    Except PyErr (List (Int × Int × Int)) :=
  match find_particular_solution a b c with
  | .error .valueError => .ok []
  | .error .zeroDivision => .error .zeroDivision
  | .ok (x0, y0) =>
    let d : Int := Int.gcd a b
    let solutions := candList x0 y0 (b.fdiv d) (a.fdiv d) t_range
    let sorted := solutions.mergeSort candLe
    .ok ((sorted.take max_solutions).map (fun p => (p.x, p.y, p.t)))

/-- The candidates enumerated by `generate_solutions` over
`t ∈ [-t_range, t_range]` (empty when no particular solution exists). -/
def gsCands (a b c : Int) (t_range : Nat) : List Cand :=
  match find_particular_solution a b c with
  | .ok (x0, y0) =>
      candList x0 y0 (b.fdiv (Int.gcd a b)) (a.fdiv (Int.gcd a b)) t_range
  | .error _ => []

/-- Helper for `calculate_window_size`: the value `max(abs(s[4]),
abs(s[5]))` for one entry of the consumed 6-tuples (the zero-indexed
fields 4 and 5, the "plot values", not the solution coordinates
`s[0], s[1]`). -/
def plotMax (s : Int × Int × Int × Int × Int × Int) : Int :=
  max |s.2.2.2.2.1| |s.2.2.2.2.2|

/-- Embedding of `calculate_window_size` from `main.py`: `10` for an
empty list, else `int(max_coord * 1.2)` where `max_coord` ranges over
the fields `s[4], s[5]`.  `int(m * 1.2)` is embedded as `6 * m / 5`
(floor division): `m ≥ 0` here, and for `m` within native width the
float product `m * 1.2` rounds and truncates to exactly `⌊6m/5⌋`. -/
def calculate_window_size (solutions : List (Int × Int × Int × Int × Int × Int)) : Int :=
  match solutions with
  | [] => 10
  | s :: rest =>
      let max_coord := rest.foldl (fun acc u => max acc (plotMax u)) (plotMax s)
      (6 * max_coord).fdiv 5

/-- Fuel-indexed variant of `extended_gcd`, used to state that the
recursion of the source terminates: `none` means the recursion did not
reach the `b == 0` base case within the given number of unfoldings. -/
def extended_gcd_fuel : Nat → Int → Int → Option (Int × Int × Int)
  | 0, _, _ => none
  | fuel+1, a, b =>
    if b = 0 then some (a, 1, 0)
    else
      match extended_gcd_fuel fuel b (a.fmod b) with
      | none => none
      | some r => some (r.1, r.2.2, r.2.1 - (a.fdiv b) * r.2.2)

/-- Squared Euclidean distance from the origin of a returned
`(x, y, t)` triple; the display order of the source is by
`sqrt(x² + y²)`, equivalently by this quantity. -/
def sqDist (p : Int × Int × Int) : Int := p.1 * p.1 + p.2.1 * p.2.1

/-- One Euclidean step preserves the gcd:
`gcd(b, a mod b) = gcd(a, b)` (Python floor modulus). -/
theorem gcd_fmod (a b : Int) : Int.gcd b (a.fmod b) = Int.gcd a b := by
  apply Nat.dvd_antisymm
  · have h1 : (↑(Int.gcd b (a.fmod b)) : Int) ∣ b := Int.gcd_dvd_left
    have h2 : (↑(Int.gcd b (a.fmod b)) : Int) ∣ a.fmod b := Int.gcd_dvd_right
    have ha : (↑(Int.gcd b (a.fmod b)) : Int) ∣ a := by
      have hid : a.fmod b + b * a.fdiv b = a := Int.fmod_add_fdiv a b
      calc (↑(Int.gcd b (a.fmod b)) : Int) ∣ a.fmod b + b * a.fdiv b :=
            dvd_add h2 (Dvd.dvd.mul_right h1 _)
        _ = a := hid
    exact Int.natCast_dvd_natCast.mp (Int.dvd_gcd ha h1)
  · have h1 : (↑(Int.gcd a b) : Int) ∣ a := Int.gcd_dvd_left
    have h2 : (↑(Int.gcd a b) : Int) ∣ b := Int.gcd_dvd_right
    have hm : (↑(Int.gcd a b) : Int) ∣ a.fmod b := by
      rw [Int.fmod_def]
      exact dvd_sub h1 (Dvd.dvd.mul_right h2 _)
    exact Int.natCast_dvd_natCast.mp (Int.dvd_gcd h2 hm)

/-- Correctness of the embedded `extended_gcd`: the returned triple
`(d, x, y)` satisfies the Bézout identity `a·x + b·y = d`, its first
component has absolute value `gcd(|a|, |b|)`, and is positive whenever
`b > 0`. -/
theorem extended_gcd_spec (a b : Int) :
    a * (extended_gcd a b).2.1 + b * (extended_gcd a b).2.2 = (extended_gcd a b).1
    ∧ ((extended_gcd a b).1).natAbs = Int.gcd a b
    ∧ (0 < b → 0 < (extended_gcd a b).1) := by
  generalize hn : b.natAbs = n
  induction n using Nat.strong_induction_on generalizing a b with
  | _ n ih =>
    by_cases hb : b = 0
    · subst hb
      rw [extended_gcd]
      simp [Int.gcd]
    · obtain ⟨ih1, ih2, ih3⟩ :=
        ih ((a.fmod b).natAbs) (hn ▸ natAbs_fmod_lt a hb) b (a.fmod b) rfl
      rw [extended_gcd]
      simp only [hb, dite_false]
      refine ⟨?_, ?_, ?_⟩
      · calc a * (extended_gcd b (a.fmod b)).2.2
              + b * ((extended_gcd b (a.fmod b)).2.1
                     - a.fdiv b * (extended_gcd b (a.fmod b)).2.2)
            = b * (extended_gcd b (a.fmod b)).2.1
              + (a - b * a.fdiv b) * (extended_gcd b (a.fmod b)).2.2 := by ring
          _ = b * (extended_gcd b (a.fmod b)).2.1
              + (a.fmod b) * (extended_gcd b (a.fmod b)).2.2 := by
                rw [← Int.fmod_def]
          _ = (extended_gcd b (a.fmod b)).1 := ih1
      · rw [ih2, gcd_fmod]
      · intro hbpos
        by_cases hr : a.fmod b = 0
        · rw [hr]
          rw [extended_gcd]
          simpa using hbpos
        · have hrpos : 0 < a.fmod b :=
            lt_of_le_of_ne (Int.fmod_nonneg' a hbpos) (Ne.symm hr)
          exact ih3 hrpos

/-- On the absolute values of its arguments (the only way the repository
calls it), `extended_gcd` returns exactly `gcd(|a|, |b|)` as first
component. -/
theorem extended_gcd_abs_fst (a b : Int) :
    (extended_gcd ↑a.natAbs ↑b.natAbs).1 = ↑(Int.gcd a b) := by
  obtain ⟨_, h2, h3⟩ := extended_gcd_spec (↑a.natAbs) (↑b.natAbs)
  have hg : Int.gcd ↑a.natAbs ↑b.natAbs = Int.gcd a b := by
    simp [Int.gcd, Int.natAbs_abs]
  rcases Nat.eq_zero_or_pos b.natAbs with h0 | hpos
  · have hb : b = 0 := Int.natAbs_eq_zero.mp h0
    subst hb
    rw [extended_gcd]
    simp [Int.gcd_zero_right]
  · have hdpos : 0 < (extended_gcd ↑a.natAbs ↑b.natAbs).1 := h3 (by omega)
    rw [hg] at h2
    omega

/-- The fuel-indexed recursion reaches the base case whenever the fuel
exceeds `|b|`, and then agrees with `extended_gcd`. -/
theorem extended_gcd_fuel_complete :
    ∀ (n : Nat) (a b : Int), b.natAbs < n →
      extended_gcd_fuel n a b = some (extended_gcd a b) := by
  intro n
  induction n with
  | zero => intro a b h; omega
  | succ n ih =>
    intro a b h
    by_cases hb : b = 0
    · subst hb
      rw [extended_gcd]
      simp [extended_gcd_fuel]
    · have hlt : (a.fmod b).natAbs < n := by
        have := natAbs_fmod_lt a hb
        omega
      rw [extended_gcd]
      simp only [extended_gcd_fuel, hb, if_false, ih b (a.fmod b) hlt, dite_false]

/-- Evaluation bridge: a concrete run of the fuel-indexed recursion
determines the value of `extended_gcd`. -/
theorem extended_gcd_eval {a b : Int} {v : Int × Int × Int}
    (h : extended_gcd_fuel (b.natAbs + 1) a b = some v) : extended_gcd a b = v := by
  have hc := extended_gcd_fuel_complete (b.natAbs + 1) a b (Nat.lt_succ_self _)
  rw [hc] at h
  exact Option.some_injective _ h

/-- Helper: under feasibility (`gcd > 0` and `gcd ∣ c`),
`find_particular_solution` succeeds and its result solves the equation. -/
theorem find_particular_solution_ok (a b c : Int)
    (hd : 0 < Int.gcd a b) (hdvd : (↑(Int.gcd a b) : Int) ∣ c) :
    ∃ x0 y0, find_particular_solution a b c = Except.ok (x0, y0)
      ∧ a * x0 + b * y0 = c := by
  obtain ⟨hbez, -, -⟩ := extended_gcd_spec (↑a.natAbs : Int) (↑b.natAbs : Int)
  have habs := extended_gcd_abs_fst a b
  set g := extended_gcd (↑a.natAbs : Int) (↑b.natAbs : Int) with hgdef
  have hdvd' : g.1 ∣ c := habs ▸ hdvd
  have hd0 : ¬ g.1 = 0 := by rw [habs]; simp; omega
  have hfm : c.fmod g.1 = 0 := by
    rw [Int.fmod_eq_emod _ (by rw [habs]; positivity)]
    exact Int.emod_eq_zero_of_dvd hdvd'
  refine ⟨if a < 0 then -(g.2.1 * c.fdiv g.1) else g.2.1 * c.fdiv g.1,
          if b < 0 then -(g.2.2 * c.fdiv g.1) else g.2.2 * c.fdiv g.1, ?_, ?_⟩
  · simp only [find_particular_solution, ← hgdef]
    rw [if_neg hd0, if_neg (by simp [hfm])]
  · have hq : g.1 * c.fdiv g.1 = c := by
      rw [Int.fdiv_eq_ediv_of_dvd hdvd']
      exact Int.mul_ediv_cancel' hdvd'
    have hna : (↑a.natAbs : Int) = |a| := Int.natCast_natAbs a
    have hnb : (↑b.natAbs : Int) = |b| := Int.natCast_natAbs b
    have ha' : a * (if a < 0 then -(g.2.1 * c.fdiv g.1) else g.2.1 * c.fdiv g.1)
        = ↑a.natAbs * g.2.1 * c.fdiv g.1 := by
      by_cases ha : a < 0
      · rw [if_pos ha, hna, abs_of_neg ha]; ring
      · rw [if_neg ha, hna, abs_of_nonneg (not_lt.mp ha)]; ring
    have hb' : b * (if b < 0 then -(g.2.2 * c.fdiv g.1) else g.2.2 * c.fdiv g.1)
        = ↑b.natAbs * g.2.2 * c.fdiv g.1 := by
      by_cases hb : b < 0
      · rw [if_pos hb, hnb, abs_of_neg hb]; ring
      · rw [if_neg hb, hnb, abs_of_nonneg (not_lt.mp hb)]; ring
    rw [ha', hb']
    calc ↑a.natAbs * g.2.1 * c.fdiv g.1 + ↑b.natAbs * g.2.2 * c.fdiv g.1
        = (↑a.natAbs * g.2.1 + ↑b.natAbs * g.2.2) * c.fdiv g.1 := by ring
      _ = g.1 * c.fdiv g.1 := by rw [hbez]
      _ = c := hq

theorem candLe_trans (p q r : Cand) : candLe p q → candLe q r → candLe p r := by
  intro h1 h2
  simp only [candLe, decide_eq_true_eq] at h1 h2 ⊢
  omega

theorem candLe_total (p q : Cand) : candLe p q || candLe q p := by
  simp only [candLe, Bool.or_eq_true, decide_eq_true_eq]
  omega

theorem tList_pairwise (T : Nat) : (tList T).Pairwise (· < ·) := by
  unfold tList
  rw [List.pairwise_map]
  show List.Pairwise (fun i j : Nat => ((i : Int) - (T : Int)) < ((j : Int) - (T : Int)))
    (List.range (2 * T + 1))
  refine List.Pairwise.imp ?_ (List.pairwise_lt_range _)
  intro i j h
  omega

theorem candList_pairwise_t (x0 y0 bd ad : Int) (T : Nat) :
    (candList x0 y0 bd ad T).Pairwise (fun p q => p.t < q.t) := by
  unfold candList
  refine List.pairwise_map.mpr ?_
  exact (tList_pairwise T).imp (fun h => h)

theorem mem_candList_dist2 {x0 y0 bd ad : Int} {T : Nat} {p : Cand}
    (hp : p ∈ candList x0 y0 bd ad T) : p.dist2 = p.x * p.x + p.y * p.y := by
  obtain ⟨t, -, rfl⟩ := List.mem_map.mp hp
  rfl

/-- The sorted candidate list is ordered by non-decreasing squared
distance. -/
theorem mergeSort_candList_sorted (L : List Cand) :
    (L.mergeSort candLe).Pairwise (fun p q => p.dist2 ≤ q.dist2) := by
  refine (List.sorted_mergeSort candLe_trans candLe_total L).imp ?_
  intro p q h
  simpa [candLe] using h

/-- Stability: in the sorted candidate list, ties in distance keep the
enumeration order, which for the candidate list is increasing `t`. -/
theorem mergeSort_candList_stable (x0 y0 bd ad : Int) (T : Nat) :
    ((candList x0 y0 bd ad T).mergeSort candLe).Pairwise
      (fun p q => p.dist2 < q.dist2 ∨ (p.dist2 = q.dist2 ∧ p.t < q.t)) := by
  set L := candList x0 y0 bd ad T with hL
  have henum : (List.mergeSort (L.enum) (List.enumLE candLe)).map (·.2)
      = L.mergeSort candLe := List.mergeSort_enum
  rw [← henum, List.pairwise_map]
  have hsorted : (List.mergeSort (L.enum) (List.enumLE candLe)).Pairwise
      (fun a b => List.enumLE candLe a b) :=
    List.sorted_mergeSort (List.enumLE_trans candLe_trans)
      (List.enumLE_total candLe_total) _
  have hnodup : (List.mergeSort (L.enum) (List.enumLE candLe)).Nodup := by
    have he : L.enum.Nodup := by
      have h := List.nodup_range L.length
      rw [← List.enum_map_fst L] at h
      exact h.of_map _
    exact ((List.mergeSort_perm _ _).nodup_iff).mpr he
  refine (hsorted.and hnodup).imp_of_mem ?_
  rintro ⟨i, p⟩ ⟨j, q⟩ hu hv ⟨huv, hne⟩
  show p.dist2 < q.dist2 ∨ (p.dist2 = q.dist2 ∧ p.t < q.t)
  have hu2 : L[i]? = some p :=
    List.mk_mem_enum_iff_getElem?.mp ((List.mem_mergeSort).mp hu)
  have hv2 : L[j]? = some q :=
    List.mk_mem_enum_iff_getElem?.mp ((List.mem_mergeSort).mp hv)
  simp only [List.enumLE] at huv
  by_cases h1 : candLe p q
  · simp only [h1, if_true] at huv
    have hle : p.dist2 ≤ q.dist2 := by simpa [candLe] using h1
    by_cases h2 : candLe q p
    · simp only [h2, if_true] at huv
      have hidx : i ≤ j := by simpa using huv
      have heq : p.dist2 = q.dist2 := by
        have : q.dist2 ≤ p.dist2 := by simpa [candLe] using h2
        omega
      refine Or.inr ⟨heq, ?_⟩
      have hlt : i < j := by
        rcases Nat.lt_or_ge i j with h | h
        · exact h
        · have hij : i = j := Nat.le_antisymm hidx h
          subst hij
          rw [hu2] at hv2
          exact absurd (by rw [Option.some_injective _ hv2]) hne
      obtain ⟨hilen, hieq⟩ := List.getElem?_eq_some.mp hu2
      obtain ⟨hjlen, hjeq⟩ := List.getElem?_eq_some.mp hv2
      have hp := List.pairwise_iff_getElem.mp (candList_pairwise_t x0 y0 bd ad T)
        i j hilen hjlen hlt
      rw [hieq, hjeq] at hp
      exact hp
    · simp only [h2, if_false] at huv
      refine Or.inl ?_
      have : ¬ q.dist2 ≤ p.dist2 := by simpa [candLe] using h2
      omega
  · simp [h1] at huv

/-- When the equation is infeasible with positive gcd,
`find_particular_solution` raises `ValueError`. -/
theorem find_particular_solution_infeasible {a b c : Int}
    (hd : 0 < Int.gcd a b) (hndvd : ¬ (↑(Int.gcd a b) : Int) ∣ c) :
    find_particular_solution a b c = Except.error PyErr.valueError := by
  have habs := extended_gcd_abs_fst a b
  have hd0 : ¬ (extended_gcd ↑a.natAbs ↑b.natAbs).1 = 0 := by
    rw [habs]
    simp
    omega
  have hfm : ¬ c.fmod (extended_gcd ↑a.natAbs ↑b.natAbs).1 = 0 := by
    rw [habs, Int.fmod_eq_emod _ (by positivity)]
    intro h
    exact hndvd (Int.dvd_of_emod_eq_zero h)
  simp only [find_particular_solution]
  rw [if_neg hd0, if_pos hfm]

/-- Unfolding of `generate_solutions` when a particular solution exists. -/
theorem generate_solutions_eq_of_ok {a b c x0 y0 : Int} (T k : Nat)
    (h : find_particular_solution a b c = Except.ok (x0, y0)) :
    generate_solutions a b c T k = Except.ok
      ((((candList x0 y0 (b.fdiv ↑(Int.gcd a b)) (a.fdiv ↑(Int.gcd a b)) T).mergeSort
          candLe).take k).map (fun p => (p.x, p.y, p.t))) := by
  simp [generate_solutions, h]

/-- Unfolding of `gsCands` when a particular solution exists. -/
theorem gsCands_eq_of_ok {a b c x0 y0 : Int} (T : Nat)
    (h : find_particular_solution a b c = Except.ok (x0, y0)) :
    gsCands a b c T
      = candList x0 y0 (b.fdiv ↑(Int.gcd a b)) (a.fdiv ↑(Int.gcd a b)) T := by
  simp [gsCands, h]

/-- The homogeneous step leaves the equation value unchanged:
`a·(b//d) = b·(a//d)` for `d = gcd(a, b)`. -/
theorem fdiv_cross (a b : Int) :
    a * (b.fdiv ↑(Int.gcd a b)) = b * (a.fdiv ↑(Int.gcd a b)) := by
  rw [Int.fdiv_eq_ediv_of_dvd Int.gcd_dvd_right,
      Int.fdiv_eq_ediv_of_dvd Int.gcd_dvd_left,
      ← Int.mul_ediv_assoc a Int.gcd_dvd_right,
      ← Int.mul_ediv_assoc b Int.gcd_dvd_left,
      mul_comm a b]

/-- Every candidate produced by the loop solves the equation. -/
theorem mkCand_solves {a b c x0 y0 : Int} (hsol : a * x0 + b * y0 = c) (t : Int) :
    a * (mkCand x0 y0 (b.fdiv ↑(Int.gcd a b)) (a.fdiv ↑(Int.gcd a b)) t).x
      + b * (mkCand x0 y0 (b.fdiv ↑(Int.gcd a b)) (a.fdiv ↑(Int.gcd a b)) t).y = c := by
  show a * (x0 + b.fdiv ↑(Int.gcd a b) * t) + b * (y0 - a.fdiv ↑(Int.gcd a b) * t) = c
  have hcross := fdiv_cross a b
  calc a * (x0 + b.fdiv ↑(Int.gcd a b) * t) + b * (y0 - a.fdiv ↑(Int.gcd a b) * t)
      = (a * x0 + b * y0)
        + (a * (b.fdiv ↑(Int.gcd a b)) - b * (a.fdiv ↑(Int.gcd a b))) * t := by ring
    _ = c := by rw [hcross, hsol]; ring

theorem plotMax_nonneg (s : Int × Int × Int × Int × Int × Int) : 0 ≤ plotMax s :=
  le_trans (abs_nonneg _) (le_max_left _ _)

/-- The running maximum in `calculate_window_size` bounds the initial
value and every entry. -/
theorem foldl_plotMax_ge (l : List (Int × Int × Int × Int × Int × Int)) (init : Int) :
    init ≤ l.foldl (fun acc u => max acc (plotMax u)) init
    ∧ ∀ u ∈ l, plotMax u ≤ l.foldl (fun acc u => max acc (plotMax u)) init := by
  induction l generalizing init with
  | nil => simp
  | cons h tl ih =>
    refine ⟨?_, ?_⟩
    · exact le_trans (le_max_left init (plotMax h)) (ih (max init (plotMax h))).1
    · intro u hu
      rcases List.mem_cons.mp hu with rfl | hu
      · exact le_trans (le_trans (le_max_right init (plotMax u))
          (le_refl _)) (ih (max init (plotMax u))).1
      · exact (ih _).2 u hu

/-- C1: for all integers `a, b, c` (signs arbitrary) with
`d = gcd(|a|,|b|) > 0` and `d ∣ c`, `find_particular_solution a b c`
returns a pair `(x0, y0)` with `a·x0 + b·y0 = c` exactly. -/
theorem claim_C1_particular_solution (a b c : Int)
    (hd : 0 < Int.gcd a b) (hdvd : (↑(Int.gcd a b) : Int) ∣ c) :
    ∃ x0 y0, find_particular_solution a b c = Except.ok (x0, y0)
      ∧ a * x0 + b * y0 = c :=
  find_particular_solution_ok a b c hd hdvd

/-- C1 witness: concrete feasible inputs with negative `a`
(`-2·x + 3·y = 6`) and negative `b` (`4·x - 6·y = 10`). -/
theorem claim_C1_witness :
    (∃ x0 y0, find_particular_solution (-2) 3 6 = Except.ok (x0, y0)
      ∧ (-2) * x0 + 3 * y0 = 6)
    ∧ (∃ x0 y0, find_particular_solution 4 (-6) 10 = Except.ok (x0, y0)
      ∧ 4 * x0 + (-6) * y0 = 10) :=
  ⟨claim_C1_particular_solution (-2) 3 6 (by decide) (by decide),
   claim_C1_particular_solution 4 (-6) 10 (by decide) (by decide)⟩

/-- C6 counterexample: `extended_gcd 0 (-4)` returns `d = -4`, which is
negative and differs from `gcd(|0|, |-4|) = 4`, refuting the claim that
`d = gcd(|a|,|b|) ≥ 0` for arbitrary signs. -/
theorem claim_C6_counterexample :
    (extended_gcd 0 (-4)).1 = -4 ∧ ((Int.gcd 0 (-4) : Nat) : Int) = 4
    ∧ ¬ 0 ≤ (extended_gcd 0 (-4)).1 := by
  have h : extended_gcd 0 (-4) = (-4, 0, 1) := extended_gcd_eval (by decide)
  rw [h]
  refine ⟨rfl, by decide, by decide⟩

/-- C6 amended: for all integers `a, b`, `extended_gcd a b = (d, x, y)`
satisfies `a·x + b·y = d` and `|d| = gcd(|a|,|b|)`; moreover
`d = gcd(|a|,|b|) ≥ 0` holds whenever `b > 0`, or `b = 0` and `a ≥ 0`
(in particular on the absolute values the repository passes), but for
negative inputs `d` may be negative. -/
theorem claim_C6_extended_gcd (a b : Int) :
    a * (extended_gcd a b).2.1 + b * (extended_gcd a b).2.2 = (extended_gcd a b).1
    ∧ ((extended_gcd a b).1).natAbs = Int.gcd a b
    ∧ ((0 < b ∨ (b = 0 ∧ 0 ≤ a)) → (extended_gcd a b).1 = ↑(Int.gcd a b)) := by
  obtain ⟨h1, h2, h3⟩ := extended_gcd_spec a b
  refine ⟨h1, h2, ?_⟩
  rintro (hb | ⟨hb, ha⟩)
  · have := h3 hb
    omega
  · subst hb
    rw [extended_gcd]
    simp [Int.gcd_zero_right, Int.natAbs_of_nonneg ha]

/-- C6 witness for the amended claim: at `a = 5, b = 0` the Bézout
identity holds and the sign condition applies. -/
theorem claim_C6_witness :
    5 * (extended_gcd 5 0).2.1 + 0 * (extended_gcd 5 0).2.2 = (extended_gcd 5 0).1
    ∧ ((extended_gcd 5 0).1).natAbs = Int.gcd 5 0
    ∧ (extended_gcd 5 0).1 = ↑(Int.gcd 5 0) :=
  ⟨(claim_C6_extended_gcd 5 0).1, (claim_C6_extended_gcd 5 0).2.1,
   (claim_C6_extended_gcd 5 0).2.2 (Or.inr ⟨rfl, by decide⟩)⟩

/-- C10: `extended_gcd` is total over the integers: for every `a, b`
the recursion reaches the `b = 0` base case within `|b| + 1` unfoldings
(each division `a % b`, `a // b` is taken only under the guard `b ≠ 0`),
and the fuel-indexed unfolding computes exactly `extended_gcd a b`. -/
theorem claim_C10_extended_gcd_total (a b : Int) :
    extended_gcd_fuel (b.natAbs + 1) a b = some (extended_gcd a b) :=
  extended_gcd_fuel_complete (b.natAbs + 1) a b (Nat.lt_succ_self _)

/-- C4: the code does NOT handle the zero edge cases; this theorem
records the failures: `find_min_t_range 0 5 10` divides by zero
(`y0 // (a // d)` with `a // d = 0`), and `find_particular_solution`
with `a = b = 0` evaluates `c % 0`, an uncaught `ZeroDivisionError`. -/
theorem claim_C4_zero_division :
    find_min_t_range 0 5 10 none none = Except.error PyErr.zeroDivision
    ∧ find_particular_solution 0 0 0 = Except.error PyErr.zeroDivision := by
  have h05 : extended_gcd 0 5 = (5, 0, 1) := extended_gcd_eval (by decide)
  have h00 : extended_gcd 0 0 = (0, 1, 0) := extended_gcd_eval (by decide)
  constructor
  · have hfps : find_particular_solution 0 5 10 = Except.ok (0, 2) := by
      simp [find_particular_solution, h05]
    simp [find_min_t_range, hfps]
  · simp [find_particular_solution, h00]

/-- C9: for the degenerate equation `0·x + 5·y = 10` the enumerator
succeeds for every range and cap (no division by zero) and every
returned solution has `y = 2`: the solutions lie on a horizontal line. -/
theorem claim_C9_horizontal_line (T k : Nat) :
    ∃ l, generate_solutions 0 5 10 T k = Except.ok l
      ∧ ∀ p ∈ l, p.2.1 = 2 := by
  have h05 : extended_gcd 0 5 = (5, 0, 1) := extended_gcd_eval (by decide)
  have hfps : find_particular_solution 0 5 10 = Except.ok (0, 2) := by
    simp [find_particular_solution, h05]
  refine ⟨_, generate_solutions_eq_of_ok T k hfps, ?_⟩
  intro p hp
  obtain ⟨q, hq, rfl⟩ := List.mem_map.mp hp
  have hqL : q ∈ candList 0 2 ((5:Int).fdiv ↑(Int.gcd 0 5)) ((0:Int).fdiv ↑(Int.gcd 0 5)) T :=
    (List.mem_mergeSort).mp ((List.take_sublist _ _).subset hq)
  obtain ⟨t, -, rfl⟩ := List.mem_map.mp hqL
  show (2 : Int) - (0:Int).fdiv ↑(Int.gcd 0 5) * t = 2
  simp

/-- C10 witness: a concrete run, `extended_gcd 7 3`, completes within
`|3| + 1` unfoldings. -/
theorem claim_C10_witness :
    extended_gcd_fuel 4 7 3 = some (extended_gcd 7 3) :=
  claim_C10_extended_gcd_total 7 3

/-- C9 witness: the degenerate equation at `t_range = 2`,
`max_solutions = 3`. -/
theorem claim_C9_witness :
    ∃ l, generate_solutions 0 5 10 2 3 = Except.ok l
      ∧ ∀ p ∈ l, p.2.1 = 2 :=
  claim_C9_horizontal_line 2 3

/-- C2: every triple returned by `generate_solutions` on a feasible
equation satisfies `a·x + b·y = c` exactly. -/
theorem claim_C2_roundtrip (a b c : Int) (T k : Nat)
    (hd : 0 < Int.gcd a b) (hdvd : (↑(Int.gcd a b) : Int) ∣ c) :
    ∃ l, generate_solutions a b c T k = Except.ok l
      ∧ ∀ p ∈ l, a * p.1 + b * p.2.1 = c := by
  obtain ⟨x0, y0, hfps, hsol⟩ := find_particular_solution_ok a b c hd hdvd
  refine ⟨_, generate_solutions_eq_of_ok T k hfps, ?_⟩
  intro p hp
  obtain ⟨q, hq, rfl⟩ := List.mem_map.mp hp
  have hqL : q ∈ candList x0 y0 (b.fdiv ↑(Int.gcd a b)) (a.fdiv ↑(Int.gcd a b)) T :=
    (List.mem_mergeSort).mp ((List.take_sublist _ _).subset hq)
  obtain ⟨t, -, rfl⟩ := List.mem_map.mp hqL
  exact mkCand_solves hsol t

/-- C2 witness: the spec's own example `2x + 3y = 6`. -/
theorem claim_C2_witness :
    ∃ l, generate_solutions 2 3 6 1 5 = Except.ok l
      ∧ ∀ p ∈ l, 2 * p.1 + 3 * p.2.1 = 6 :=
  claim_C2_roundtrip 2 3 6 1 5 (by decide) (by decide)

/-- C7 counterexample: at `a = 0, b = 0, c = 1` the equation is
infeasible (`gcd = 0` does not divide `1`), but `generate_solutions`
does not return the empty list: the uncaught `ZeroDivisionError` from
`c % 0` propagates (the `try` only catches `ValueError`). -/
theorem claim_C7_counterexample :
    generate_solutions 0 0 1 50 20 = Except.error PyErr.zeroDivision
    ∧ Int.gcd 0 0 = 0 := by
  have h00 : extended_gcd 0 0 = (0, 1, 0) := extended_gcd_eval (by decide)
  have hfps : find_particular_solution 0 0 1 = Except.error PyErr.zeroDivision := by
    simp [find_particular_solution, h00]
  exact ⟨by simp [generate_solutions, hfps], by decide⟩

/-- C7 amended: provided `d = gcd(|a|,|b|) > 0` (so the `c % d` check
does not itself divide by zero) and `max_solutions ≥ 1`,
`generate_solutions` returns the empty list exactly when `d ∤ c`, and a
feasible equation never yields an empty list. -/
theorem claim_C7_empty_iff (a b c : Int) (T k : Nat)
    (hd : 0 < Int.gcd a b) (hk : 1 ≤ k) :
    ∃ l, generate_solutions a b c T k = Except.ok l
      ∧ (l = [] ↔ ¬ (↑(Int.gcd a b) : Int) ∣ c) := by
  by_cases hdvd : (↑(Int.gcd a b) : Int) ∣ c
  · obtain ⟨x0, y0, hfps, -⟩ := find_particular_solution_ok a b c hd hdvd
    refine ⟨_, generate_solutions_eq_of_ok T k hfps, ?_⟩
    simp only [hdvd, not_true, iff_false]
    intro hnil
    have hlen := congrArg List.length hnil
    simp [List.length_take, candList, tList] at hlen
    omega
  · refine ⟨[], ?_, by simp [hdvd]⟩
    simp [generate_solutions, find_particular_solution_infeasible hd hdvd]

/-- C7 witness: the spec's infeasible example `2x + 4y = 3`
(`gcd = 2` does not divide `3`) yields the empty list. -/
theorem claim_C7_witness :
    ∃ l, generate_solutions 2 4 3 50 20 = Except.ok l
      ∧ (l = [] ↔ ¬ (↑(Int.gcd 2 4) : Int) ∣ 3) :=
  claim_C7_empty_iff 2 4 3 50 20 (by decide) (by decide)

/-- C8: on a feasible equation `generate_solutions` returns exactly
`min(2·t_range + 1, max_solutions)` solutions, and with
`max_solutions = 1` it returns exactly one solution, one whose distance
to the origin is minimal among all enumerated candidates. -/
theorem claim_C8_count (a b c : Int) (T k : Nat)
    (hd : 0 < Int.gcd a b) (hdvd : (↑(Int.gcd a b) : Int) ∣ c) :
    ∃ l, generate_solutions a b c T k = Except.ok l
      ∧ l.length = min (2 * T + 1) k
      ∧ (k = 1 → ∃ p, l = [p] ∧ ∀ q ∈ gsCands a b c T, sqDist p ≤ q.dist2) := by
  obtain ⟨x0, y0, hfps, -⟩ := find_particular_solution_ok a b c hd hdvd
  have hLlen :
      (candList x0 y0 (b.fdiv ↑(Int.gcd a b)) (a.fdiv ↑(Int.gcd a b)) T).length
        = 2 * T + 1 := by
    simp [candList, tList]
  refine ⟨_, generate_solutions_eq_of_ok T k hfps, ?_, ?_⟩
  · rw [List.length_map, List.length_take, List.length_mergeSort, hLlen, Nat.min_comm]
  · intro hk1
    subst hk1
    have hSlen :
        ((candList x0 y0 (b.fdiv ↑(Int.gcd a b)) (a.fdiv ↑(Int.gcd a b)) T).mergeSort
          candLe).length = 2 * T + 1 := by
      rw [List.length_mergeSort, hLlen]
    obtain ⟨p0, tl, hS⟩ := List.exists_cons_of_ne_nil
      (l := (candList x0 y0 (b.fdiv ↑(Int.gcd a b)) (a.fdiv ↑(Int.gcd a b)) T).mergeSort
        candLe)
      (by intro h; rw [h] at hSlen; simp at hSlen)
    have hp0L : p0 ∈ candList x0 y0 (b.fdiv ↑(Int.gcd a b)) (a.fdiv ↑(Int.gcd a b)) T :=
      (List.mem_mergeSort).mp (hS ▸ List.mem_cons_self p0 tl)
    refine ⟨(p0.x, p0.y, p0.t), by rw [hS]; rfl, ?_⟩
    intro q hq
    rw [gsCands_eq_of_ok T hfps] at hq
    have hqS : q ∈ (candList x0 y0 (b.fdiv ↑(Int.gcd a b)) (a.fdiv ↑(Int.gcd a b)) T).mergeSort
        candLe := (List.mem_mergeSort).mpr hq
    have hsorted := mergeSort_candList_sorted
      (candList x0 y0 (b.fdiv ↑(Int.gcd a b)) (a.fdiv ↑(Int.gcd a b)) T)
    rw [hS] at hsorted hqS
    have hsq : sqDist (p0.x, p0.y, p0.t) = p0.dist2 := (mem_candList_dist2 hp0L).symm
    rw [hsq]
    rcases List.mem_cons.mp hqS with rfl | hq'
    · exact le_refl _
    · exact (List.pairwise_cons.mp hsorted).1 q hq'

/-- C8 witness: `2x + 3y = 6` with `t_range = 1` and `max_solutions = 1`. -/
theorem claim_C8_witness :
    ∃ l, generate_solutions 2 3 6 1 1 = Except.ok l
      ∧ l.length = min (2 * 1 + 1) 1
      ∧ (1 = 1 → ∃ p, l = [p] ∧ ∀ q ∈ gsCands 2 3 6 1, sqDist p ≤ q.dist2) :=
  claim_C8_count 2 3 6 1 1 (by decide) (by decide)

/-- C3: on a feasible equation the returned list is sorted by
non-decreasing distance from the origin with ties broken by the
enumeration order (increasing `t`), and every enumerated candidate in
`[-t_range, t_range]` either appears among the returned solutions or
lies at least as far from the origin as the last returned solution. -/
theorem claim_C3_sorted_stable (a b c : Int) (T k : Nat)
    (hd : 0 < Int.gcd a b) (hdvd : (↑(Int.gcd a b) : Int) ∣ c) :
    ∃ l, generate_solutions a b c T k = Except.ok l
      ∧ l.Pairwise (fun p q => sqDist p < sqDist q
          ∨ (sqDist p = sqDist q ∧ p.2.2 < q.2.2))
      ∧ (∀ last, l.getLast? = some last → ∀ q ∈ gsCands a b c T,
          (q.x, q.y, q.t) ∈ l ∨ sqDist last ≤ q.dist2) := by
  obtain ⟨x0, y0, hfps, -⟩ := find_particular_solution_ok a b c hd hdvd
  refine ⟨_, generate_solutions_eq_of_ok T k hfps, ?_, ?_⟩
  · rw [List.pairwise_map]
    have htake := (mergeSort_candList_stable x0 y0 (b.fdiv ↑(Int.gcd a b))
      (a.fdiv ↑(Int.gcd a b)) T).sublist (List.take_sublist k _)
    refine htake.imp_of_mem ?_
    intro p q hp hq hpq
    have hpL : p ∈ candList x0 y0 (b.fdiv ↑(Int.gcd a b)) (a.fdiv ↑(Int.gcd a b)) T :=
      (List.mem_mergeSort).mp ((List.take_sublist _ _).subset hp)
    have hqL : q ∈ candList x0 y0 (b.fdiv ↑(Int.gcd a b)) (a.fdiv ↑(Int.gcd a b)) T :=
      (List.mem_mergeSort).mp ((List.take_sublist _ _).subset hq)
    have hdp : sqDist (p.x, p.y, p.t) = p.dist2 := (mem_candList_dist2 hpL).symm
    have hdq : sqDist (q.x, q.y, q.t) = q.dist2 := (mem_candList_dist2 hqL).symm
    show sqDist (p.x, p.y, p.t) < sqDist (q.x, q.y, q.t)
      ∨ (sqDist (p.x, p.y, p.t) = sqDist (q.x, q.y, q.t) ∧ p.t < q.t)
    rw [hdp, hdq]
    exact hpq
  · intro last hlast q hq
    rw [gsCands_eq_of_ok T hfps] at hq
    rw [List.getLast?_map] at hlast
    obtain ⟨pl, hpl, rfl⟩ := Option.map_eq_some'.mp hlast
    have hplmem : pl ∈ ((candList x0 y0 (b.fdiv ↑(Int.gcd a b)) (a.fdiv ↑(Int.gcd a b))
        T).mergeSort candLe).take k := List.mem_of_getLast?_eq_some hpl
    have hplL : pl ∈ candList x0 y0 (b.fdiv ↑(Int.gcd a b)) (a.fdiv ↑(Int.gcd a b)) T :=
      (List.mem_mergeSort).mp ((List.take_sublist _ _).subset hplmem)
    have hqS : q ∈ (candList x0 y0 (b.fdiv ↑(Int.gcd a b)) (a.fdiv ↑(Int.gcd a b))
        T).mergeSort candLe := (List.mem_mergeSort).mpr hq
    have hsplit := List.take_append_drop k
      ((candList x0 y0 (b.fdiv ↑(Int.gcd a b)) (a.fdiv ↑(Int.gcd a b)) T).mergeSort candLe)
    rcases List.mem_append.mp (by rw [hsplit]; exact hqS) with hqtake | hqdrop
    · exact Or.inl (List.mem_map_of_mem _ hqtake)
    · refine Or.inr ?_
      have hsorted := mergeSort_candList_sorted
        (candList x0 y0 (b.fdiv ↑(Int.gcd a b)) (a.fdiv ↑(Int.gcd a b)) T)
      rw [← hsplit] at hsorted
      have hle := (List.pairwise_append.mp hsorted).2.2 pl hplmem q hqdrop
      have hsq : sqDist (pl.x, pl.y, pl.t) = pl.dist2 := (mem_candList_dist2 hplL).symm
      rw [hsq]
      exact hle

/-- C3 witness: `2x + 3y = 6` with `t_range = 1`, `max_solutions = 2`. -/
theorem claim_C3_witness :
    ∃ l, generate_solutions 2 3 6 1 2 = Except.ok l
      ∧ l.Pairwise (fun p q => sqDist p < sqDist q
          ∨ (sqDist p = sqDist q ∧ p.2.2 < q.2.2))
      ∧ (∀ last, l.getLast? = some last → ∀ q ∈ gsCands 2 3 6 1,
          (q.x, q.y, q.t) ∈ l ∨ sqDist last ≤ q.dist2) :=
  claim_C3_sorted_stable 2 3 6 1 2 (by decide) (by decide)

/-- C5 counterexample: `calculate_window_size` reads the 5th and 6th
tuple fields (the "plot values"), not the coordinates `x, y`, and
truncates with `int(...)`: on `[(0,0,0,0,1,1)]` (coordinates `0`, plot
fields `1`) it returns `1`, not `1.2 × max(|x|,|y|) = 0`; on
`[(7,7,0,0,7,7)]` it returns `8`, not the exact `1.2 × 7 = 8.4`
(`5 · 8 ≠ 42`). -/
theorem claim_C5_counterexample :
    calculate_window_size [(0, 0, 0, 0, 1, 1)] = 1
    ∧ calculate_window_size [(7, 7, 0, 0, 7, 7)] = 8
    ∧ 5 * calculate_window_size [(7, 7, 0, 0, 7, 7)] ≠ 6 * 7 := by
  refine ⟨by decide, by decide, by decide⟩

/-- C5 amended: `calculate_window_size` returns `10` on the empty list;
otherwise it returns `⌊1.2 · M⌋ ≥ 0` where `M` is the maximum of
`|s[4]|, |s[5]|` (the plot-value fields) over the list, and this output
is at least every `max(|s[4]|, |s[5]|)` (the `1.2` padding never shrinks
below the tightest bound on those fields). -/
theorem claim_C5_window_size (l : List (Int × Int × Int × Int × Int × Int)) :
    (l = [] → calculate_window_size l = 10)
    ∧ 0 ≤ calculate_window_size l
    ∧ ∀ s ∈ l, plotMax s ≤ calculate_window_size l := by
  cases l with
  | nil =>
    refine ⟨fun _ => rfl, by decide, ?_⟩
    intro s hs
    exact absurd hs (List.not_mem_nil s)
  | cons s rest =>
    have hfold := foldl_plotMax_ge rest (plotMax s)
    have hMn : 0 ≤ rest.foldl (fun acc u => max acc (plotMax u)) (plotMax s) :=
      le_trans (plotMax_nonneg s) hfold.1
    have hcws : calculate_window_size (s :: rest)
        = (6 * rest.foldl (fun acc u => max acc (plotMax u)) (plotMax s)).fdiv 5 := rfl
    have hge : rest.foldl (fun acc u => max acc (plotMax u)) (plotMax s)
        ≤ (6 * rest.foldl (fun acc u => max acc (plotMax u)) (plotMax s)).fdiv 5 := by
      rw [Int.fdiv_eq_ediv _ (by omega)]
      rw [Int.le_ediv_iff_mul_le (by omega)]
      omega
    refine ⟨fun h => by simp at h, ?_, ?_⟩
    · rw [hcws]
      exact le_trans hMn hge
    · intro u hu
      rw [hcws]
      rcases List.mem_cons.mp hu with rfl | hu'
      · exact le_trans hfold.1 hge
      · exact le_trans (hfold.2 u hu') hge

/-- C5 witness: empty input gives the default `10`; a one-element list
is bounded by the output. -/
theorem claim_C5_witness :
    calculate_window_size [] = 10
    ∧ plotMax (1, 2, 3, 4, 5, 6) ≤ calculate_window_size [(1, 2, 3, 4, 5, 6)] :=
  ⟨(claim_C5_window_size []).1 rfl,
   (claim_C5_window_size [(1, 2, 3, 4, 5, 6)]).2.2 _ (List.mem_cons_self _ _)⟩

end Dio
